import Mathlib

/-!
# kcalc: input buffer, result ring and the device read/write entry points

A shallow embedding of `src/buffer.h`, `src/buffer.c` and the two file
operations `kcalc_read` / `kcalc_write` of `src/kcalc.c`.

Modelling conventions.

* A C `char` cell is an `Int` (the value of the `char`); an array of cells is a
  function `Nat → Int` from the index to the cell.  Indices at or beyond the
  declared array size stand for the memory that follows the array.
* The `int` fields `count`, `head`, `rpos` are `Nat`: every operation of the
  source keeps them inside `0 .. SIZE`, and all theorems are stated for states
  satisfying the buffer invariants, where no machine-integer wraparound occurs.
* The `size_t count` argument of the file operations is a `Nat`.
* The kernel helpers `copy_to_user`, `copy_from_user` and `vsnprintf` and the
  evaluator `kcalc_parse` are not part of the repository; they are modelled as
  the environment (see the doc comment of each).
-/

namespace Kcalc

/-! ## Constants (`buffer.h`, `errno`) -/

/-- End marker: `#define EOF -1`. -/
def EOF : Int := -1

/-- Size of the input buffer: `#define INBUF_SIZE 4096`. -/
def INBUF_SIZE : Nat := 4096

/-- Size of the ring: `#define RING_SIZE 1024`. -/
def RING_SIZE : Nat := 1024

/-- Linux error number `EFAULT` ("bad address"). -/
def EFAULT : Int := 14

/-! ## Data model (`buffer.h`) -/

/-- Input buffer `struct _inbuf { int count; int rpos; char buf[INBUF_SIZE]; }`. -/
structure inbuf where
  count : Nat
  rpos : Nat
  buf : Nat → Int

/-- Ring buffer `struct _ring { int count; int head; char buf[RING_SIZE]; }`. -/
structure ring where
  count : Nat
  head : Nat
  buf : Nat → Int

/-- The two global buffers `expr_buf` and `result_ring` of `buffer.c`. -/
structure kcalc where
  expr_buf : inbuf
  result_ring : ring

/-- Zero-initialised input buffer: `inbuf expr_buf = {0};`. -/
def expr_buf_init : inbuf := ⟨0, 0, fun _ => 0⟩

/-- Zero-initialised ring: `ring result_ring = {0};`. -/
def result_ring_init : ring := ⟨0, 0, fun _ => 0⟩

/-- Device state right after module load. -/
def kcalc_init : kcalc := ⟨expr_buf_init, result_ring_init⟩

/-- Invariant of the input buffer: `rpos ≤ count ≤ INBUF_SIZE`. -/
def inbuf_inv (b : inbuf) : Prop := b.rpos ≤ b.count ∧ b.count ≤ INBUF_SIZE

instance (b : inbuf) : Decidable (inbuf_inv b) := by
  unfold inbuf_inv; infer_instance

/-- Invariant of the ring: `count ≤ RING_SIZE` and `head` is a valid index. -/
def ring_inv (r : ring) : Prop := r.count ≤ RING_SIZE ∧ r.head < RING_SIZE

instance (r : ring) : Decidable (ring_inv r) := by
  unfold ring_inv; infer_instance

/-- Logical content of the ring: the cells `head, head+1, …, head+count-1`
taken modulo `RING_SIZE`, oldest first. -/
def ring_content (r : ring) : List Int :=
  (List.range r.count).map (fun k => r.buf ((r.head + k) % RING_SIZE))

/-- The last `n` elements of a list (the whole list when it is shorter). -/
def last_bytes (n : Nat) (l : List Int) : List Int := l.drop (l.length - n)

/-- Array store `m[i] = v`. -/
def store (m : Nat → Int) (i : Nat) (v : Int) : Nat → Int :=
  fun k => if k = i then v else m k

/-! ## Environment: user memory and kernel helpers -/

/-- A user-space buffer as seen through the `__user` pointer handed to a file
operation: `cells i` is the byte at `buf[i]`, and only the first `limit` bytes
are accessible (an access at or beyond `limit` faults). -/
structure umem where
  cells : Nat → Int
  limit : Nat

/-- Environment model of `copy_to_user(buf + dst, src + frm, n)`: copies bytes
in increasing order until the first inaccessible user byte and returns the
number of bytes that could not be copied (`0` on success). -/
def copy_to_user (u : umem) (dst : Nat) (src : Nat → Int) (frm n : Nat) : umem × Nat :=
  let k := min n (u.limit - dst)
  ({ u with cells := fun i => if dst ≤ i ∧ i < dst + k then src (frm + (i - dst)) else u.cells i },
    n - k)

/-- Environment model of `copy_from_user(dst, buf, n)`: copies the accessible
prefix of the user bytes, zero-fills the part of the destination that could
not be copied and returns the number of bytes not copied (`0` on success). -/
def copy_from_user (dst : Nat → Int) (u : umem) (n : Nat) : (Nat → Int) × Nat :=
  let k := min n u.limit
  (fun i => if i < k then u.cells i else if i < n then 0 else dst i, n - k)

/-- Environment model of `vsnprintf(buf, size, fmt, args)`, where `text` is
the complete rendering of `fmt` with `args`: at most `size - 1` characters of
`text` are stored, followed by a terminating NUL, and the return value is the
length of the complete rendering (which may exceed `size - 1`). -/
def vsnprintf (buf : Nat → Int) (size : Nat) (text : List Int) : (Nat → Int) × Nat :=
  let n := min text.length (size - 1)
  (fun j => if j < n then text.getD j 0 else if j = n ∧ 0 < size then 0 else buf j,
    text.length)

/-! ## `buffer.c` -/

/-- Source function `inbuf_getchar` (`buffer.c` lines 11–16): returns the
value and the updated buffer. -/
def inbuf_getchar (buf : inbuf) : Int × inbuf :=
  if buf.rpos ≥ buf.count then (EOF, buf)
  else (buf.buf buf.rpos, { buf with rpos := buf.rpos + 1 })

/-- The `for (j = 0; j < i; j++)` loop of `ring_sprintf32` (`buffer.c` lines
29–36).  The first argument is the number of iterations still to run
(`i - j`); then the loop variable `j`, the ring and `copy_start`. -/
def ring_sprintf32_loop (tmp_buf : Nat → Int) : Nat → Nat → ring → Nat → ring
  | 0, _, buf, _ => buf
  | n + 1, j, buf, copy_start =>
    let buf1 : ring := { buf with buf := store buf.buf copy_start (tmp_buf j) }
    let buf2 : ring :=
      if RING_SIZE = buf1.count then { buf1 with head := (buf1.head + 1) % RING_SIZE }
      else { buf1 with count := buf1.count + 1 }
    ring_sprintf32_loop tmp_buf n (j + 1) buf2 ((copy_start + 1) % RING_SIZE)

/-- Source function `ring_sprintf32` (`buffer.c` lines 18–39).  The format and
its arguments are represented by their complete rendering `text`; `stack` is
the memory found at `tmp_buf` on entry (cells `0..31` are the uninitialised
array, cells from `32` on are whatever follows it).  Returns the ring and the
function's return value `i`. -/
def ring_sprintf32 (buf : ring) (stack : Nat → Int) (text : List Int) : ring × Nat :=
  let v := vsnprintf stack 32 text
  let tmp_buf := v.1
  let i := v.2
  let copy_start := (buf.head + buf.count) % RING_SIZE
  (ring_sprintf32_loop tmp_buf i 0 buf copy_start, i)

/-! ## `kcalc.c` -/

/-- Outcome of `kcalc_read`: the ring, the user buffer, `*ppos` and the
return value. -/
structure read_result where
  result_ring : ring
  user : umem
  ppos : Int
  ret : Int

/-- Source function `kcalc_read` (`kcalc.c` lines 86–113). -/
def kcalc_read (result_ring : ring) (buf : umem) (count : Nat) (ppos : Int) : read_result :=
  let bytes := if count > result_ring.count then result_ring.count else count
  if result_ring.head + bytes ≥ RING_SIZE then
    let fst := RING_SIZE - result_ring.head
    let rst := bytes - fst
    -- copy the first part
    let c1 := copy_to_user buf 0 result_ring.buf result_ring.head fst
    if c1.2 ≠ 0 then ⟨result_ring, c1.1, ppos, -EFAULT⟩
    else
      -- copy the rest part
      let c2 := copy_to_user c1.1 0 result_ring.buf 0 rst
      if c2.2 ≠ 0 then ⟨result_ring, c2.1, ppos, -EFAULT⟩
      else
        ⟨{ result_ring with
            head := (result_ring.head + bytes) % RING_SIZE,
            count := result_ring.count - bytes },
          c2.1, ppos + bytes, bytes⟩
  else
    let c := copy_to_user buf 0 result_ring.buf 0 bytes
    if c.2 ≠ 0 then ⟨result_ring, c.1, ppos, -EFAULT⟩
    else
      ⟨{ result_ring with
          head := result_ring.head + bytes,
          count := result_ring.count - bytes },
        c.1, ppos + bytes, bytes⟩

/-- Outcome of `kcalc_write`: the device state, `*ppos` and the return value. -/
structure write_result where
  dev : kcalc
  ppos : Int
  ret : Int

/-- First part of `kcalc_write` (`kcalc.c` lines 124–131): the truncation of
the length and the `copy_from_user` call.  Returns the device state after the
copy and the value `copy_from_user` returned. -/
def kcalc_write_copy (d : kcalc) (buf : umem) (count : Nat) : kcalc × Nat :=
  let bytes := if count > INBUF_SIZE then INBUF_SIZE else count
  let c := copy_from_user d.expr_buf.buf buf bytes
  ({ d with expr_buf := { d.expr_buf with buf := c.1 } }, c.2)

/-- Source function `kcalc_write` (`kcalc.c` lines 122–143).  The evaluator
`kcalc_parse` (declared in `parser.h`) takes no argument and works on the two
global buffers; it is a parameter.  When the copy succeeds, the state handed
to `kcalc_parse` is `(kcalc_write_copy d buf count).1`. -/
def kcalc_write (kcalc_parse : kcalc → kcalc) (d : kcalc) (buf : umem) (count : Nat)
    (ppos : Int) : write_result :=
  let bytes := if count > INBUF_SIZE then INBUF_SIZE else count
  let c := kcalc_write_copy d buf count
  if c.2 ≠ 0 then ⟨c.1, ppos, -EFAULT⟩
  else
    -- evaluate expressions and put the result in the output ring
    let d2 := kcalc_parse c.1
    -- reset read position and count of input buffer
    ⟨{ d2 with expr_buf := { d2.expr_buf with count := 0, rpos := 0 } }, ppos + bytes, bytes⟩

/-! ## Drivers used to state the properties -/

/-- The first `n` bytes of a user buffer. -/
def delivered (u : umem) (n : Nat) : List Int := (List.range n).map u.cells

/-- Result of `k` successive `inbuf_getchar` calls: the values returned, in
call order, and the buffer left behind. -/
def inbuf_getchars : Nat → inbuf → List Int × inbuf
  | 0, buf => ([], buf)
  | k + 1, buf =>
    let r := inbuf_getchar buf
    let rest := inbuf_getchars k r.2
    (r.1 :: rest.1, rest.2)

/-- A user buffer of `limit` accessible bytes, all zero. -/
def zero_user (limit : Nat) : umem := ⟨fun _ => 0, limit⟩

/-- A user buffer holding exactly the bytes of `data`. -/
def user_of (data : List Int) : umem := ⟨fun i => data.getD i 0, data.length⟩

/-- A ring whose two pending bytes `'A'`, `'B'` straddle the end of the array:
`'A'` in cell 1023 and `'B'` in cell 0. -/
def wrap_ring : ring := ⟨2, 1023, fun i => if i = 1023 then 65 else if i = 0 then 66 else 0⟩

/-- A full ring whose oldest byte is in cell 5. -/
def full_ring : ring := ⟨1024, 5, fun i => i⟩

/-- Scenario: the fresh ring after `"AB"` was appended. -/
def ab_ring : ring := (ring_sprintf32 result_ring_init (fun _ => 0) [65, 66]).1

/-- Scenario: a one-byte read on `ab_ring`. -/
def ab_first_read : read_result := kcalc_read ab_ring (zero_user 16) 1 0

/-- Scenario: a second one-byte read, into a new zeroed user buffer. -/
def ab_second_read : read_result :=
  kcalc_read ab_first_read.result_ring (zero_user 16) 1 ab_first_read.ppos

/-- Scenario: an earlier cycle on the fresh ring, `"7"` appended and read back
with `read(10)`. -/
def cycle_first_read : read_result :=
  kcalc_read (ring_sprintf32 result_ring_init (fun _ => 0) [55]).1 (zero_user 16) 10 0

/-- Scenario: the ring after `"2"` was appended in the next cycle. -/
def cycle_ring : ring := (ring_sprintf32 cycle_first_read.result_ring (fun _ => 0) [50]).1

/-- Scenario: `read(10)` after that append, into a new zeroed user buffer. -/
def cycle_second_read : read_result :=
  kcalc_read cycle_ring (zero_user 16) 10 cycle_first_read.ppos

/-- Scenario: the `read(10)` that follows immediately. -/
def cycle_third_read : read_result :=
  kcalc_read cycle_second_read.result_ring cycle_second_read.user 10 cycle_second_read.ppos

/-- Scenario: the fresh ring after a rendering of 33 characters `'a'` was
appended, with the byte `'U'` in the memory around the scratch array. -/
def long_ring : ring :=
  (ring_sprintf32 result_ring_init (fun _ => 85) (List.replicate 33 97)).1

/-- Scenario: the state in which `kcalc_write` runs the evaluator, and the
value returned by the copy, for the write of `"1+1"` on the fresh device. -/
def write_1p1 : kcalc × Nat := kcalc_write_copy kcalc_init (user_of [49, 43, 49]) 3

/-- Value of a byte `0x00..0xFF` held in a `char` that is signed (two's
complement), as on the target. -/
def char_of_byte (b : Nat) : Int :=
  if b % 256 < 128 then ((b % 256 : Nat) : Int) else ((b % 256 : Nat) : Int) - 256

/-- Scenario: an input buffer whose single unread byte is `0xFF`. -/
def ff_inbuf : inbuf := ⟨1, 0, fun _ => char_of_byte 255⟩

/-- Scenario: the fresh ring after a rendering of exactly 32 characters `'b'`
was appended. -/
def exact32_ring : ring :=
  (ring_sprintf32 result_ring_init (fun _ => 85) (List.replicate 32 98)).1

/-- Scenario: the fresh ring after a rendering of 33 characters `'b'` was
appended, when the memory cell right after the 32-cell scratch array holds
`v` and the scratch array itself is zero on entry. -/
def after_scratch_ring (v : Int) : ring :=
  (ring_sprintf32 result_ring_init (fun j => if j = 32 then v else 0) (List.replicate 33 98)).1

/-- Scenario: an evaluator that leaves the input buffer half consumed. -/
def half_parse (d : kcalc) : kcalc := ⟨⟨9, 4, d.expr_buf.buf⟩, d.result_ring⟩

/-! ## Auxiliary lemmas -/

/-- The byte count `kcalc_read` settles on is `min count result_ring.count`. -/
theorem read_bytes_eq_min (n c : Nat) : (if n > c then c else n) = min n c := by
  split <;> omega

/-- The byte count `kcalc_write` settles on is `min count INBUF_SIZE`. -/
theorem write_bytes_eq_min (n : Nat) :
    (if n > INBUF_SIZE then INBUF_SIZE else n) = min n INBUF_SIZE := by
  split <;> omega

/-- A `kcalc_read` call that does not return `-EFAULT` returns the byte count,
reduces `count` by it and leaves the stored bytes alone. -/
theorem kcalc_read_ok (r : ring) (u : umem) (n : Nat) (p : Int)
    (hok : (kcalc_read r u n p).ret ≠ -EFAULT) :
    (kcalc_read r u n p).ret = ((min n r.count : Nat) : Int) ∧
    (kcalc_read r u n p).result_ring.count = r.count - min n r.count ∧
    (kcalc_read r u n p).result_ring.buf = r.buf := by
  unfold kcalc_read at hok ⊢
  simp only [read_bytes_eq_min] at hok ⊢
  split_ifs at hok ⊢ <;> simp_all

/-- The length of the logical content is `count`. -/
theorem ring_content_length (r : ring) : (ring_content r).length = r.count := by
  simp [ring_content]

/-- Cutting a list that is short enough changes nothing. -/
theorem last_bytes_of_le (n : Nat) (l : List Int) (h : l.length ≤ n) : last_bytes n l = l := by
  unfold last_bytes
  rw [Nat.sub_eq_zero_of_le h, List.drop_zero]

/-- Asking for at most the whole list or for `n` elements is the same cut. -/
theorem last_bytes_min (n : Nat) (l : List Int) :
    last_bytes (min l.length n) l = last_bytes n l := by
  unfold last_bytes
  congr 1
  omega

/-- Appending to a list already cut to its last `n` elements and cutting again
is the same as cutting the whole list once. -/
theorem last_bytes_append (n : Nat) (x y : List Int) :
    last_bytes n (last_bytes n x ++ y) = last_bytes n (x ++ y) := by
  unfold last_bytes
  rw [← List.drop_append_of_le_length (by omega : x.length - n ≤ x.length)]
  rw [List.drop_drop]
  congr 1
  simp only [List.length_drop, List.length_append]
  omega

/-- One loop iteration on a ring with room: the byte is appended. -/
theorem ring_content_room (r : ring) (b : Int) (hc : r.count < RING_SIZE) :
    ring_content ⟨r.count + 1, r.head, store r.buf ((r.head + r.count) % RING_SIZE) b⟩ =
      ring_content r ++ [b] := by
  unfold ring_content
  simp only [RING_SIZE] at hc ⊢
  rw [List.range_succ, List.map_append]
  congr 1
  · apply List.map_congr_left
    intro k hk
    have hk' : k < r.count := List.mem_range.1 hk
    have hne : (r.head + k) % 1024 ≠ (r.head + r.count) % 1024 := by omega
    simp [store, hne]
  · simp [store]

/-- One loop iteration on a full ring: the oldest byte is dropped and the new
byte is appended. -/
theorem ring_content_full (r : ring) (b : Int) (hc : r.count = RING_SIZE)
    (hh : r.head < RING_SIZE) :
    ring_content ⟨r.count, (r.head + 1) % RING_SIZE, store r.buf r.head b⟩ =
      (ring_content r ++ [b]).drop 1 := by
  unfold ring_content
  simp only [RING_SIZE] at hc hh ⊢
  obtain ⟨m, hm⟩ : ∃ m, r.count = m + 1 := ⟨1023, hc⟩
  rw [hm]
  conv_lhs => rw [List.range_succ, List.map_append]
  conv_rhs => rw [List.range_succ_eq_map, List.map_cons, List.cons_append, List.drop_one,
    List.tail_cons, List.map_map]
  congr 1
  · apply List.map_congr_left
    intro k hk
    have hk' : k < m := List.mem_range.1 hk
    have hne : ((r.head + 1) % 1024 + k) % 1024 ≠ r.head := by omega
    have heq : ((r.head + 1) % 1024 + k) % 1024 = (r.head + (k + 1)) % 1024 := by omega
    simp only [store, Function.comp_apply, Nat.succ_eq_add_one]
    rw [if_neg hne, heq]
  · have heq : ((r.head + 1) % 1024 + m) % 1024 = r.head := by omega
    simp only [List.map_cons, List.map_nil, store]
    rw [if_pos heq]

/-- Unfolding of one iteration of the copy loop. -/
theorem ring_sprintf32_loop_succ (tmp : Nat → Int) (n j : Nat) (r : ring) (cs : Nat) :
    ring_sprintf32_loop tmp (n + 1) j r cs =
      ring_sprintf32_loop tmp n (j + 1)
        (if RING_SIZE = r.count then ⟨r.count, (r.head + 1) % RING_SIZE, store r.buf cs (tmp j)⟩
          else ⟨r.count + 1, r.head, store r.buf cs (tmp j)⟩)
        ((cs + 1) % RING_SIZE) := rfl

/-- The copy loop, started at `copy_start = (head + count) % RING_SIZE`,
appends the scratch cells `j, j+1, …, j+n-1` and keeps the newest `RING_SIZE`
bytes. -/
theorem ring_sprintf32_loop_content (tmp : Nat → Int) (n : Nat) : ∀ (j : Nat) (r : ring),
    ring_inv r →
    ring_inv (ring_sprintf32_loop tmp n j r ((r.head + r.count) % RING_SIZE)) ∧
    ring_content (ring_sprintf32_loop tmp n j r ((r.head + r.count) % RING_SIZE)) =
      last_bytes RING_SIZE (ring_content r ++ (List.range' j n).map tmp) ∧
    (ring_sprintf32_loop tmp n j r ((r.head + r.count) % RING_SIZE)).count =
      min (r.count + n) RING_SIZE := by
  induction n with
  | zero =>
    intro j r hinv
    have hlen : (ring_content r).length ≤ RING_SIZE := by
      rw [ring_content_length]; exact hinv.1
    refine ⟨hinv, ?_, ?_⟩
    · simp only [ring_sprintf32_loop, List.range'_zero, List.map_nil, List.append_nil]
      exact (last_bytes_of_le _ _ hlen).symm
    · simp only [ring_sprintf32_loop]
      have := hinv.1
      omega
  | succ n ih =>
    intro j r hinv
    obtain ⟨hc, hh⟩ := hinv
    rw [ring_sprintf32_loop_succ]
    by_cases hfull : RING_SIZE = r.count
    · rw [if_pos hfull]
      have hcs : (r.head + r.count) % RING_SIZE = r.head := by
        simp only [RING_SIZE] at hfull hh ⊢; omega
      have hnext : (r.head + r.count) % RING_SIZE + 1 = r.head + 1 := by rw [hcs]
      have hcs2 : ((r.head + 1) % RING_SIZE + r.count) % RING_SIZE =
          (r.head + 1) % RING_SIZE := by
        simp only [RING_SIZE] at hfull hh ⊢; omega
      have hinv2 : ring_inv ⟨r.count, (r.head + 1) % RING_SIZE, store r.buf r.head (tmp j)⟩ := by
        refine ⟨hc, ?_⟩
        simp only [RING_SIZE]; omega
      have h := ih (j + 1) ⟨r.count, (r.head + 1) % RING_SIZE, store r.buf r.head (tmp j)⟩ hinv2
      simp only [hcs2] at h
      rw [hnext, hcs]
      obtain ⟨h1, h2, h3⟩ := h
      refine ⟨h1, ?_, ?_⟩
      · rw [h2, ring_content_full r (tmp j) hfull.symm hh]
        have hl : (ring_content r ++ [tmp j]).drop 1 =
            last_bytes RING_SIZE (ring_content r ++ [tmp j]) := by
          have e : (ring_content r ++ [tmp j]).length - RING_SIZE = 1 := by
            simp only [List.length_append, ring_content_length, List.length_singleton]
            omega
          unfold last_bytes
          rw [e]
        rw [hl, last_bytes_append, List.range'_succ, List.map_cons, List.append_assoc,
          List.singleton_append]
      · rw [h3]
        simp only [RING_SIZE] at hfull ⊢; omega
    · rw [if_neg hfull]
      have hlt : r.count < RING_SIZE := by omega
      have hcs2 : ((r.head + r.count) % RING_SIZE + 1) % RING_SIZE =
          (r.head + (r.count + 1)) % RING_SIZE := by
        simp only [RING_SIZE]; omega
      have hinv2 : ring_inv
          ⟨r.count + 1, r.head, store r.buf ((r.head + r.count) % RING_SIZE) (tmp j)⟩ :=
        ⟨hlt, hh⟩
      have h := ih (j + 1)
        ⟨r.count + 1, r.head, store r.buf ((r.head + r.count) % RING_SIZE) (tmp j)⟩ hinv2
      rw [hcs2]
      obtain ⟨h1, h2, h3⟩ := h
      refine ⟨h1, ?_, ?_⟩
      · rw [h2, ring_content_room r (tmp j) hlt]
        rw [List.range'_succ, List.map_cons, List.append_assoc, List.singleton_append]
      · rw [h3]
        simp only [RING_SIZE] at hlt ⊢; omega

/-- For a rendering of at most 31 characters the scratch cells `0..len-1`
filled by `vsnprintf` are the rendering itself. -/
theorem vsnprintf_cells (stack : Nat → Int) (d : List Int) (hd : d.length ≤ 31) :
    (List.range' 0 d.length).map (vsnprintf stack 32 d).1 = d := by
  apply List.ext_getElem
  · simp
  · intro i h1 h2
    have hi : i < d.length := h2
    have hmin : i < min d.length (32 - 1) := by omega
    simp only [List.getElem_map, List.getElem_range', vsnprintf, Nat.zero_add, Nat.one_mul]
    rw [if_pos hmin, List.getD_eq_getElem _ _ hi]

/-- Successive `inbuf_getchar` calls from any read position that leaves at
least `k` unread bytes return the next `k` cells and advance `rpos` by `k`. -/
theorem inbuf_getchars_from (k : Nat) : ∀ b : inbuf, b.rpos + k ≤ b.count →
    (inbuf_getchars k b).1 = (List.range' b.rpos k).map b.buf ∧
    (inbuf_getchars k b).2 = { b with rpos := b.rpos + k } := by
  induction k with
  | zero => intro b _; simp [inbuf_getchars]
  | succ k ih =>
    intro b h
    have hlt : ¬ (b.rpos ≥ b.count) := by omega
    have hstep : inbuf_getchar b = (b.buf b.rpos, { b with rpos := b.rpos + 1 }) := by
      simp [inbuf_getchar, hlt]
    obtain ⟨h1, h2⟩ := ih { b with rpos := b.rpos + 1 } (by simp; omega)
    simp only [inbuf_getchars, hstep, h1, h2, List.range'_succ, List.map_cons, true_and]
    simp; omega

/-- The copy in `kcalc_write` touches neither `count` nor `rpos` of the input
buffer, nor the result ring. -/
theorem kcalc_write_copy_frame (d : kcalc) (buf : umem) (n : Nat) :
    (kcalc_write_copy d buf n).1.expr_buf.count = d.expr_buf.count ∧
    (kcalc_write_copy d buf n).1.expr_buf.rpos = d.expr_buf.rpos ∧
    (kcalc_write_copy d buf n).1.result_ring = d.result_ring := by
  simp [kcalc_write_copy]

/-- The copy in `kcalc_write` succeeds exactly when the first
`min count INBUF_SIZE` user bytes are accessible. -/
theorem kcalc_write_copy_ok_iff (d : kcalc) (buf : umem) (n : Nat) :
    (kcalc_write_copy d buf n).2 = 0 ↔ min n INBUF_SIZE ≤ buf.limit := by
  simp only [kcalc_write_copy, copy_from_user, write_bytes_eq_min]
  omega

/-- The byte count is never the error code. -/
theorem count_ne_efault (k : Nat) : ((k : Nat) : Int) ≠ -EFAULT := by
  simp only [EFAULT]; omega

/-- A wrapping `kcalc_read` whose two `copy_to_user` calls both report
success does not return `-EFAULT`. -/
theorem kcalc_read_wrap_ok (r : ring) (u : umem) (n : Nat) (p : Int)
    (hw : r.head + min n r.count ≥ RING_SIZE)
    (h1 : (copy_to_user u 0 r.buf r.head (RING_SIZE - r.head)).2 = 0)
    (h2 : (copy_to_user (copy_to_user u 0 r.buf r.head (RING_SIZE - r.head)).1 0 r.buf 0
      (min n r.count - (RING_SIZE - r.head))).2 = 0) :
    (kcalc_read r u n p).ret ≠ -EFAULT := by
  unfold kcalc_read
  simp only [read_bytes_eq_min]
  rw [if_pos hw, if_neg (not_not.2 h1), if_neg (not_not.2 h2)]
  exact count_ne_efault _

/-- A non-wrapping `kcalc_read` whose `copy_to_user` call reports success
does not return `-EFAULT`. -/
theorem kcalc_read_nowrap_ok (r : ring) (u : umem) (n : Nat) (p : Int)
    (hn : r.head + min n r.count < RING_SIZE)
    (h1 : (copy_to_user u 0 r.buf 0 (min n r.count)).2 = 0) :
    (kcalc_read r u n p).ret ≠ -EFAULT := by
  unfold kcalc_read
  simp only [read_bytes_eq_min]
  rw [if_neg (by omega), if_neg (not_not.2 h1)]
  exact count_ne_efault _

/-- Copying at most `limit` bytes to the start of a user buffer succeeds and
leaves `limit` as it was. -/
theorem copy_to_user_ok (u : umem) (src : Nat → Int) (frm k : Nat) (hk : k ≤ u.limit) :
    (copy_to_user u 0 src frm k).2 = 0 ∧ (copy_to_user u 0 src frm k).1.limit = u.limit := by
  refine ⟨?_, rfl⟩
  simp only [copy_to_user]
  omega

/-- When the user buffer can take the bytes to deliver, no copy of
`kcalc_read` faults. -/
theorem kcalc_read_room_ok (r : ring) (u : umem) (n : Nat) (p : Int)
    (hroom : min n r.count ≤ u.limit) : (kcalc_read r u n p).ret ≠ -EFAULT := by
  by_cases hw : r.head + min n r.count ≥ RING_SIZE
  · have hfst : RING_SIZE - r.head ≤ u.limit := by omega
    obtain ⟨h1, hl⟩ := copy_to_user_ok u r.buf r.head (RING_SIZE - r.head) hfst
    refine kcalc_read_wrap_ok r u n p hw h1 ?_
    exact (copy_to_user_ok _ r.buf 0 (min n r.count - (RING_SIZE - r.head))
      (by rw [hl]; omega)).1
  · exact kcalc_read_nowrap_ok r u n p (by omega)
      (copy_to_user_ok u r.buf 0 (min n r.count) hroom).1

/-! ## Claims about `kcalc_read` and the append/read round trip -/

/-- C1, evaluated at a state reached from the fresh ring.  After `"AB"` is
appended and one byte is read, the ring satisfies the invariant with
`head = 1`, `count = 1` and pending content `"B"`.  A further one-byte read
does not wrap and does not fault, yet it delivers `'A'` (cell 0) and not the
byte at cell `head`: the non-wrapping branch copies from the start of the
array. -/
theorem kcalc_read_nowrap_copies_from_cell_zero :
    ring_inv ab_first_read.result_ring ∧
    ab_first_read.result_ring.head = 1 ∧ ab_first_read.result_ring.count = 1 ∧
    ab_first_read.result_ring.head + min 1 ab_first_read.result_ring.count < RING_SIZE ∧
    ring_content ab_first_read.result_ring = [66] ∧
    ab_second_read.ret = 1 ∧ delivered ab_second_read.user 1 = [65] ∧
    delivered ab_second_read.user 1 ≠ ring_content ab_first_read.result_ring := by
  decide

/-- C2, evaluated at a ring whose pending bytes `"AB"` straddle the end of the
array (`head = 1023`, `count = 2`).  A two-byte read wraps, does not fault and
returns 2, but the caller receives `'B'` at position 0 and nothing at position
1 (the cell keeps its old value 0): the second chunk is copied to the start of
the user buffer, over the first chunk. -/
theorem kcalc_read_wrap_overwrites_first_chunk :
    ring_inv wrap_ring ∧ ring_content wrap_ring = [65, 66] ∧
    wrap_ring.head + min 2 wrap_ring.count ≥ RING_SIZE ∧
    (kcalc_read wrap_ring (zero_user 16) 2 0).ret = 2 ∧
    delivered (kcalc_read wrap_ring (zero_user 16) 2 0).user 2 = [66, 0] ∧
    delivered (kcalc_read wrap_ring (zero_user 16) 2 0).user 2 ≠ ring_content wrap_ring := by
  decide

/-- C3, evaluated after one earlier write/read cycle.  The cycle that emits
`"7"` and reads it back leaves an empty ring with `head = 1`.  When `"2"` is
appended next, the pending content is `"2"`, and `read(10)` returns 1 but
delivers `'7'`; the read after that returns 0. -/
theorem append_then_read_after_earlier_cycle :
    ring_inv cycle_first_read.result_ring ∧
    cycle_first_read.result_ring.count = 0 ∧ cycle_first_read.result_ring.head = 1 ∧
    ring_content cycle_ring = [50] ∧
    cycle_second_read.ret = 1 ∧ delivered cycle_second_read.user 1 = [55] ∧
    delivered cycle_second_read.user 1 ≠ [50] ∧
    cycle_third_read.ret = 0 := by
  decide

/-- C4: on a ring satisfying the invariant, a `kcalc_read` call without copy
fault returns `min count result_ring.count`, which is not an error, and lowers
the ring's `count` by exactly that amount.  "Without copy fault" is given in
each of its forms: the user buffer can take the bytes to deliver; the
`copy_to_user` calls of the branch taken report success; or the call did not
return `-EFAULT`.  On an empty ring the call returns 0, not an error, and
leaves `count` at 0, for every user buffer and every requested length. -/
theorem kcalc_read_returns_min (r : ring) (u : umem) (n : Nat) (p : Int)
    (hinv : ring_inv r) :
    (min n r.count ≤ u.limit →
      (kcalc_read r u n p).ret = ((min n r.count : Nat) : Int) ∧
      (kcalc_read r u n p).ret ≠ -EFAULT ∧
      (kcalc_read r u n p).result_ring.count + min n r.count = r.count) ∧
    (r.head + min n r.count ≥ RING_SIZE →
      (copy_to_user u 0 r.buf r.head (RING_SIZE - r.head)).2 = 0 →
      (copy_to_user (copy_to_user u 0 r.buf r.head (RING_SIZE - r.head)).1 0 r.buf 0
        (min n r.count - (RING_SIZE - r.head))).2 = 0 →
      (kcalc_read r u n p).ret = ((min n r.count : Nat) : Int) ∧
      (kcalc_read r u n p).ret ≠ -EFAULT ∧
      (kcalc_read r u n p).result_ring.count + min n r.count = r.count) ∧
    (r.head + min n r.count < RING_SIZE →
      (copy_to_user u 0 r.buf 0 (min n r.count)).2 = 0 →
      (kcalc_read r u n p).ret = ((min n r.count : Nat) : Int) ∧
      (kcalc_read r u n p).ret ≠ -EFAULT ∧
      (kcalc_read r u n p).result_ring.count + min n r.count = r.count) ∧
    ((kcalc_read r u n p).ret ≠ -EFAULT →
      (kcalc_read r u n p).ret = ((min n r.count : Nat) : Int) ∧
      (kcalc_read r u n p).result_ring.count + min n r.count = r.count) ∧
    (r.count = 0 →
      (kcalc_read r u n p).ret = 0 ∧ (kcalc_read r u n p).ret ≠ -EFAULT ∧
      (kcalc_read r u n p).result_ring.count = 0) := by
  have key : (kcalc_read r u n p).ret ≠ -EFAULT →
      (kcalc_read r u n p).ret = ((min n r.count : Nat) : Int) ∧
      (kcalc_read r u n p).ret ≠ -EFAULT ∧
      (kcalc_read r u n p).result_ring.count + min n r.count = r.count := by
    intro hok
    obtain ⟨h1, h2, _⟩ := kcalc_read_ok r u n p hok
    exact ⟨h1, hok, by omega⟩
  refine ⟨fun hroom => key (kcalc_read_room_ok r u n p hroom),
    fun hw h1 h2 => key (kcalc_read_wrap_ok r u n p hw h1 h2),
    fun hn h1 => key (kcalc_read_nowrap_ok r u n p hn h1),
    fun hok => ⟨(key hok).1, (key hok).2.2⟩, fun h0 => ?_⟩
  have hn : r.head + min n r.count < RING_SIZE := by
    have := hinv.2
    omega
  have hc : (copy_to_user u 0 r.buf 0 (min n r.count)).2 = 0 := by
    simp only [copy_to_user]; omega
  obtain ⟨k1, k2, k3⟩ := key (kcalc_read_nowrap_ok r u n p hn hc)
  refine ⟨?_, k2, by omega⟩
  rw [k1, h0]; simp

/-- Instance of C4: a five-byte read on a ring holding two bytes across the
array end, into a user buffer of eight accessible bytes, returns 2 and leaves
`count` at 0; a ten-byte read on the empty fresh ring returns 0 even when no
byte of the user buffer is accessible. -/
theorem kcalc_read_returns_min_witness :
    ring_inv wrap_ring ∧ min 5 wrap_ring.count ≤ (zero_user 8).limit ∧
    (kcalc_read wrap_ring (zero_user 8) 5 0).ret = 2 ∧
    (kcalc_read wrap_ring (zero_user 8) 5 0).ret ≠ -EFAULT ∧
    (kcalc_read wrap_ring (zero_user 8) 5 0).result_ring.count + min 5 wrap_ring.count =
      wrap_ring.count ∧
    (kcalc_read result_ring_init (zero_user 0) 10 0).ret = 0 ∧
    (kcalc_read result_ring_init (zero_user 0) 10 0).ret ≠ -EFAULT ∧
    (kcalc_read result_ring_init (zero_user 0) 10 0).result_ring.count = 0 :=
  ⟨by decide, by decide,
   ((kcalc_read_returns_min wrap_ring (zero_user 8) 5 0 (by decide)).1 (by decide)).1,
   ((kcalc_read_returns_min wrap_ring (zero_user 8) 5 0 (by decide)).1 (by decide)).2.1,
   ((kcalc_read_returns_min wrap_ring (zero_user 8) 5 0 (by decide)).1 (by decide)).2.2,
   ((kcalc_read_returns_min result_ring_init (zero_user 0) 10 0 (by decide)).2.2.2.2 rfl).1,
   ((kcalc_read_returns_min result_ring_init (zero_user 0) 10 0 (by decide)).2.2.2.2 rfl).2.1,
   ((kcalc_read_returns_min result_ring_init (zero_user 0) 10 0 (by decide)).2.2.2.2 rfl).2.2⟩

/-! ## Claims about `ring_sprintf32` -/

/-- C5: on a ring satisfying the invariant with logical content `L`, appending
a rendering `d` of at most 31 bytes leaves the logical content equal to the
last `min (len L + len d) RING_SIZE` bytes of `L ++ d`, in order.  While there
is room nothing is lost; on overflow `count` is `RING_SIZE` and exactly
`len L + len d - RING_SIZE` oldest bytes are gone.  The invariant is kept. -/
theorem ring_sprintf32_keeps_newest (r : ring) (stack : Nat → Int) (d : List Int)
    (hinv : ring_inv r) (hd : d.length ≤ 31) :
    ring_inv (ring_sprintf32 r stack d).1 ∧
    ring_content (ring_sprintf32 r stack d).1 =
      last_bytes (min ((ring_content r).length + d.length) RING_SIZE) (ring_content r ++ d) ∧
    (ring_sprintf32 r stack d).1.count = min (r.count + d.length) RING_SIZE ∧
    (r.count + d.length ≤ RING_SIZE →
      ring_content (ring_sprintf32 r stack d).1 = ring_content r ++ d) ∧
    (RING_SIZE < r.count + d.length →
      (ring_sprintf32 r stack d).1.count = RING_SIZE ∧
      ring_content (ring_sprintf32 r stack d).1 =
        (ring_content r ++ d).drop (r.count + d.length - RING_SIZE)) := by
  have hloop := ring_sprintf32_loop_content (vsnprintf stack 32 d).1 d.length 0 r hinv
  rw [vsnprintf_cells stack d hd] at hloop
  have hdef : (ring_sprintf32 r stack d).1 =
      ring_sprintf32_loop (vsnprintf stack 32 d).1 d.length 0 r
        ((r.head + r.count) % RING_SIZE) := rfl
  rw [hdef]
  obtain ⟨h1, h2, h3⟩ := hloop
  have hlen : (ring_content r ++ d).length = (ring_content r).length + d.length :=
    List.length_append _ _
  refine ⟨h1, ?_, h3, fun hroom => ?_, fun hover => ⟨?_, ?_⟩⟩
  · rw [h2, ← hlen, last_bytes_min]
  · rw [h2]
    apply last_bytes_of_le
    rw [hlen, ring_content_length]; exact hroom
  · rw [h3]; omega
  · rw [h2]
    unfold last_bytes
    rw [hlen, ring_content_length]

/-- Instance of C5: appending `"FG"` to a ring holding `"AB"` across the array
end gives `"ABFG"`, and appending one byte to a full ring keeps `count` at
`RING_SIZE` and drops one oldest byte. -/
theorem ring_sprintf32_keeps_newest_witness :
    ring_inv wrap_ring ∧ ring_inv full_ring ∧
    ring_content (ring_sprintf32 wrap_ring (fun _ => 0) [70, 71]).1 = [65, 66, 70, 71] ∧
    ((ring_sprintf32 full_ring (fun _ => 0) [70]).1.count = RING_SIZE ∧
      ring_content (ring_sprintf32 full_ring (fun _ => 0) [70]).1 =
        (ring_content full_ring ++ [70]).drop (full_ring.count + [70].length - RING_SIZE)) :=
  ⟨by decide, by decide,
   (ring_sprintf32_keeps_newest wrap_ring (fun _ => 0) [70, 71] (by decide) (by decide)).2.2.2.1
     (by decide),
   (ring_sprintf32_keeps_newest full_ring (fun _ => 0) [70] (by decide) (by decide)).2.2.2.2
     (by decide)⟩

/-- C6, evaluated on the fresh ring with a rendering of 33 characters `'a'`
and the byte `'U'` in the memory that follows the scratch array.  The ring
grows by 33 bytes, not by at most 32; cell 31 holds the terminating NUL where
the rendering has `'a'`, and cell 32 holds the byte read from beyond the
scratch array. -/
theorem ring_sprintf32_long_rendering_not_truncated :
    (List.replicate 33 97 : List Int).length = 33 ∧
    long_ring.count = 33 ∧ long_ring.head = 0 ∧
    long_ring.buf 30 = 97 ∧ long_ring.buf 31 = 0 ∧ long_ring.buf 32 = 85 ∧
    ring_content long_ring ≠ List.replicate 32 97 := by
  decide

/-! ## Claims about `kcalc_write` and `inbuf_getchar` -/

/-- C7, evaluated on the freshly loaded device with the three-byte write
`"1+1"`.  The copy does not fault and the bytes are in `expr_buf.buf`, but in
the state on which `kcalc_write` runs the evaluator `expr_buf.count` is still
0 (it is never assigned before `kcalc_parse`), not `min 3 INBUF_SIZE = 3`, so
the first `inbuf_getchar` call already returns `EOF` and not `'1'`. -/
theorem kcalc_write_runs_evaluator_with_count_zero :
    write_1p1.2 = 0 ∧ min 3 INBUF_SIZE = 3 ∧
    write_1p1.1.expr_buf.buf 0 = 49 ∧ write_1p1.1.expr_buf.buf 1 = 43 ∧
    write_1p1.1.expr_buf.buf 2 = 49 ∧
    write_1p1.1.expr_buf.rpos = 0 ∧ write_1p1.1.expr_buf.count = 0 ∧
    (inbuf_getchar write_1p1.1.expr_buf).1 = EOF ∧
    (∀ kcalc_parse : kcalc → kcalc,
      (kcalc_write kcalc_parse kcalc_init (user_of [49, 43, 49]) 3 0).dev.result_ring =
        (kcalc_parse write_1p1.1).result_ring) := by
  refine ⟨by decide, by decide, by decide, by decide, by decide, by decide, by decide,
    by decide, fun _ => rfl⟩

/-- C8: when the copy in `kcalc_write` does not fault, cell `i` of
`expr_buf.buf` holds user byte `i` for every `i < min count INBUF_SIZE` and
every other cell is unchanged.  So for `count > INBUF_SIZE` exactly the first
`INBUF_SIZE` user bytes are stored and no later one, and for
`count ≤ INBUF_SIZE` cells `0..count-1` hold the data and the cells from
`count` on are unchanged. -/
theorem kcalc_write_stores_first_bytes (d : kcalc) (buf : umem) (n : Nat)
    (hok : (kcalc_write_copy d buf n).2 = 0) :
    (∀ i, (kcalc_write_copy d buf n).1.expr_buf.buf i =
      if i < min n INBUF_SIZE then buf.cells i else d.expr_buf.buf i) ∧
    (n > INBUF_SIZE → ∀ i, i < INBUF_SIZE →
      (kcalc_write_copy d buf n).1.expr_buf.buf i = buf.cells i) ∧
    (n ≤ INBUF_SIZE →
      (∀ i, i < n → (kcalc_write_copy d buf n).1.expr_buf.buf i = buf.cells i) ∧
      (∀ i, n ≤ i → (kcalc_write_copy d buf n).1.expr_buf.buf i = d.expr_buf.buf i)) := by
  have hlim := (kcalc_write_copy_ok_iff d buf n).1 hok
  have hall : ∀ i, (kcalc_write_copy d buf n).1.expr_buf.buf i =
      if i < min n INBUF_SIZE then buf.cells i else d.expr_buf.buf i := by
    intro i
    simp only [kcalc_write_copy, copy_from_user, write_bytes_eq_min]
    by_cases h1 : i < min n INBUF_SIZE
    · have h2 : i < min (min n INBUF_SIZE) buf.limit := by omega
      rw [if_pos h2, if_pos h1]
    · have h2 : ¬ i < min (min n INBUF_SIZE) buf.limit := by omega
      rw [if_neg h2, if_neg h1, if_neg h1]
  refine ⟨hall, fun hn i hi => ?_, fun hn => ⟨fun i hi => ?_, fun i hi => ?_⟩⟩
  · rw [hall i, if_pos (by omega)]
  · rw [hall i, if_pos (by omega)]
  · rw [hall i, if_neg (by omega)]

/-- Instance of C8: a write of 5000 accessible bytes stores byte 4095 and
leaves cell 4096 alone; a write of 3 bytes stores byte 2 and leaves cell 3
alone. -/
theorem kcalc_write_stores_first_bytes_witness :
    (kcalc_write_copy kcalc_init ⟨fun i => 65 + i % 26, 5000⟩ 5000).2 = 0 ∧
    (kcalc_write_copy kcalc_init ⟨fun i => 65 + i % 26, 5000⟩ 5000).1.expr_buf.buf 4095 =
      (⟨fun i => 65 + i % 26, 5000⟩ : umem).cells 4095 ∧
    (kcalc_write_copy kcalc_init ⟨fun i => 65 + i % 26, 5000⟩ 5000).1.expr_buf.buf 4096 =
      kcalc_init.expr_buf.buf 4096 ∧
    (kcalc_write_copy kcalc_init (user_of [49, 43, 49]) 3).1.expr_buf.buf 2 =
      (user_of [49, 43, 49]).cells 2 ∧
    (kcalc_write_copy kcalc_init (user_of [49, 43, 49]) 3).1.expr_buf.buf 3 =
      kcalc_init.expr_buf.buf 3 :=
  ⟨by decide,
   (kcalc_write_stores_first_bytes kcalc_init ⟨fun i => 65 + i % 26, 5000⟩ 5000 (by decide)).2.1
     (by decide) 4095 (by decide),
   (kcalc_write_stores_first_bytes kcalc_init ⟨fun i => 65 + i % 26, 5000⟩ 5000 (by decide)).1 4096,
   ((kcalc_write_stores_first_bytes kcalc_init (user_of [49, 43, 49]) 3 (by decide)).2.2
     (by decide)).1 2 (by decide),
   ((kcalc_write_stores_first_bytes kcalc_init (user_of [49, 43, 49]) 3 (by decide)).2.2
     (by decide)).2 3 (by decide)⟩

/-- C9: when the copy does not fault, `kcalc_write` returns
`min count INBUF_SIZE`, whatever the evaluator does and however large `count`
is; in particular the value returned is not `-EFAULT`. -/
theorem kcalc_write_returns_min (kcalc_parse : kcalc → kcalc) (d : kcalc) (buf : umem)
    (n : Nat) (p : Int) (hok : (kcalc_write_copy d buf n).2 = 0) :
    (kcalc_write kcalc_parse d buf n p).ret = ((min n INBUF_SIZE : Nat) : Int) ∧
    (kcalc_write kcalc_parse d buf n p).ret ≠ -EFAULT := by
  have h : (kcalc_write kcalc_parse d buf n p).ret = ((min n INBUF_SIZE : Nat) : Int) := by
    simp [kcalc_write, hok, write_bytes_eq_min]
  refine ⟨h, ?_⟩
  rw [h]; simp only [EFAULT]; omega

/-- Instance of C9: a write of 5000 accessible bytes is accepted and returns
4096. -/
theorem kcalc_write_returns_min_witness :
    (kcalc_write_copy kcalc_init ⟨fun i => 65 + i % 26, 5000⟩ 5000).2 = 0 ∧
    (kcalc_write id kcalc_init ⟨fun i => 65 + i % 26, 5000⟩ 5000 0).ret = 4096 :=
  ⟨by decide,
   (kcalc_write_returns_min id kcalc_init ⟨fun i => 65 + i % 26, 5000⟩ 5000 0 (by decide)).1⟩

/-- C10: on an input buffer with `rpos < count ≤ INBUF_SIZE`, `inbuf_getchar`
returns the cell at index `rpos`, increases `rpos` by exactly 1 and leaves
`count` and the cells unchanged; and starting from `rpos = 0`, for every
`k ≤ count`, `k` successive calls return the cells `0..k-1` in order. -/
theorem inbuf_getchar_returns_cell_and_advances (b : inbuf) (_hc : b.count ≤ INBUF_SIZE) :
    (b.rpos < b.count →
      (inbuf_getchar b).1 = b.buf b.rpos ∧
      (inbuf_getchar b).2.rpos = b.rpos + 1 ∧
      (inbuf_getchar b).2.count = b.count ∧
      (inbuf_getchar b).2.buf = b.buf) ∧
    (b.rpos = 0 → ∀ k, k ≤ b.count →
      (inbuf_getchars k b).1 = (List.range k).map b.buf ∧
      (inbuf_getchars k b).2.rpos = k ∧
      (inbuf_getchars k b).2.count = b.count ∧
      (inbuf_getchars k b).2.buf = b.buf) := by
  constructor
  · intro hr
    have hlt : ¬ (b.rpos ≥ b.count) := by omega
    simp [inbuf_getchar, hlt]
  · intro h0 k hk
    obtain ⟨h1, h2⟩ := inbuf_getchars_from k b (by omega)
    rw [h1, h2, h0]
    simp [List.range_eq_range']

/-- Instance of C10: on the buffer `"012"`, a call at `rpos = 1` returns `'1'`
and moves `rpos` to 2, and three calls from `rpos = 0` return `"012"`. -/
theorem inbuf_getchar_returns_cell_and_advances_witness :
    (inbuf_getchar ⟨3, 1, fun i => 48 + i⟩).1 = 49 ∧
    (inbuf_getchar ⟨3, 1, fun i => 48 + i⟩).2.rpos = 2 ∧
    (inbuf_getchars 3 ⟨3, 0, fun i => 48 + i⟩).1 = [48, 49, 50] :=
  ⟨((inbuf_getchar_returns_cell_and_advances ⟨3, 1, fun i => 48 + i⟩ (by decide)).1
      (by decide)).1,
   ((inbuf_getchar_returns_cell_and_advances ⟨3, 1, fun i => 48 + i⟩ (by decide)).1
      (by decide)).2.1,
   ((inbuf_getchar_returns_cell_and_advances ⟨3, 0, fun i => 48 + i⟩ (by decide)).2
      rfl 3 (by decide)).1⟩

/-! ## Further auxiliary lemmas -/

/-- A `kcalc_read` call that returns `-EFAULT` leaves the ring and `*ppos`
as they were. -/
theorem kcalc_read_fault (r : ring) (u : umem) (n : Nat) (p : Int)
    (hf : (kcalc_read r u n p).ret = -EFAULT) :
    (kcalc_read r u n p).result_ring = r ∧ (kcalc_read r u n p).ppos = p := by
  unfold kcalc_read at hf ⊢
  simp only [read_bytes_eq_min] at hf ⊢
  split_ifs at hf ⊢ <;> first | exact ⟨rfl, rfl⟩ | (exfalso; simp only [EFAULT] at hf; omega)

/-- After a `kcalc_read` call that does not return `-EFAULT`, `head` has
advanced by the byte count modulo `RING_SIZE`. -/
theorem kcalc_read_head (r : ring) (u : umem) (n : Nat) (p : Int)
    (hok : (kcalc_read r u n p).ret ≠ -EFAULT) :
    (kcalc_read r u n p).result_ring.head = (r.head + min n r.count) % RING_SIZE := by
  unfold kcalc_read at hok ⊢
  simp only [read_bytes_eq_min] at hok ⊢
  split_ifs at hok ⊢ with h1 h2 h3 h4
  · exact absurd rfl hok
  · exact absurd rfl hok
  · rfl
  · exact absurd rfl hok
  · simp only [RING_SIZE] at h1 ⊢; omega

/-- The copy loop keeps the ring invariant for every scratch content and
every number of iterations. -/
theorem ring_sprintf32_inv (r : ring) (stack : Nat → Int) (text : List Int)
    (hinv : ring_inv r) : ring_inv (ring_sprintf32 r stack text).1 :=
  (ring_sprintf32_loop_content (vsnprintf stack 32 text).1 text.length 0 r hinv).1

/-- Reading past the end keeps returning `EOF` without changing the buffer. -/
theorem inbuf_getchars_at_end (k : Nat) (b : inbuf) (h : b.rpos ≥ b.count) :
    (inbuf_getchars k b).1 = List.replicate k EOF ∧ (inbuf_getchars k b).2 = b := by
  have hstep : inbuf_getchar b = (EOF, b) := by simp [inbuf_getchar, h]
  induction k with
  | zero => simp [inbuf_getchars]
  | succ k ih =>
    simp only [inbuf_getchars, hstep, ih.1, ih.2, List.replicate_succ, and_self]

/-- A `kcalc_write` call whose copy succeeds returns the byte count. -/
theorem kcalc_write_ok_ret (kcalc_parse : kcalc → kcalc) (d : kcalc) (buf : umem)
    (n : Nat) (p : Int) (hok : (kcalc_write_copy d buf n).2 = 0) :
    (kcalc_write kcalc_parse d buf n p).ret = ((min n INBUF_SIZE : Nat) : Int) := by
  simp [kcalc_write, hok, write_bytes_eq_min]

/-! ## Claims about end of input, faults, invariants and frame effects -/

/-- C11: on an input buffer read to its end (`rpos = count`), `inbuf_getchar`
returns `EOF` and leaves `count`, `rpos` and the cells unchanged, so that any
number `k` of further calls return `EOF` each and still leave the buffer
unchanged. -/
theorem inbuf_getchar_eof_is_stable (b : inbuf) (h : b.rpos = b.count) :
    (inbuf_getchar b).1 = EOF ∧ (inbuf_getchar b).2 = b ∧
    ∀ k, (inbuf_getchars k b).1 = List.replicate k EOF ∧ (inbuf_getchars k b).2 = b := by
  have hge : b.rpos ≥ b.count := by omega
  refine ⟨by simp [inbuf_getchar, hge], by simp [inbuf_getchar, hge], fun k => ?_⟩
  exact inbuf_getchars_at_end k b hge

/-- Instance of C11: three calls on a two-byte buffer already read to its end
return `EOF` three times. -/
theorem inbuf_getchar_eof_is_stable_witness :
    (inbuf_getchar ⟨2, 2, fun _ => 7⟩).1 = -1 ∧
    (inbuf_getchars 3 ⟨2, 2, fun _ => 7⟩).1 = [-1, -1, -1] :=
  ⟨(inbuf_getchar_eof_is_stable ⟨2, 2, fun _ => 7⟩ rfl).1,
   ((inbuf_getchar_eof_is_stable ⟨2, 2, fun _ => 7⟩ rfl).2.2 3).1⟩

/-- C12: when a `copy_to_user` call of `kcalc_read` fails (the first or the
second chunk of a wrapping read, or the single chunk of a non-wrapping read),
`kcalc_read` returns `-EFAULT` and the ring is exactly what it was before the
call (`head`, `count` and every cell); and whenever `-EFAULT` is returned the
ring is unchanged. -/
theorem kcalc_read_fault_keeps_ring (r : ring) (u : umem) (n : Nat) (p : Int)
    (_hinv : ring_inv r) :
    (r.head + min n r.count ≥ RING_SIZE →
      (copy_to_user u 0 r.buf r.head (RING_SIZE - r.head)).2 ≠ 0 →
      (kcalc_read r u n p).ret = -EFAULT ∧ (kcalc_read r u n p).result_ring = r) ∧
    (r.head + min n r.count ≥ RING_SIZE →
      (copy_to_user u 0 r.buf r.head (RING_SIZE - r.head)).2 = 0 →
      (copy_to_user (copy_to_user u 0 r.buf r.head (RING_SIZE - r.head)).1 0 r.buf 0
        (min n r.count - (RING_SIZE - r.head))).2 ≠ 0 →
      (kcalc_read r u n p).ret = -EFAULT ∧ (kcalc_read r u n p).result_ring = r) ∧
    (r.head + min n r.count < RING_SIZE →
      (copy_to_user u 0 r.buf 0 (min n r.count)).2 ≠ 0 →
      (kcalc_read r u n p).ret = -EFAULT ∧ (kcalc_read r u n p).result_ring = r) ∧
    ((kcalc_read r u n p).ret = -EFAULT → (kcalc_read r u n p).result_ring = r) := by
  refine ⟨fun hw h1 => ?_, fun hw h1 h2 => ?_, fun hn h1 => ?_,
    fun hf => (kcalc_read_fault r u n p hf).1⟩
  · have hret : (kcalc_read r u n p).ret = -EFAULT := by
      unfold kcalc_read
      simp only [read_bytes_eq_min]
      rw [if_pos hw, if_pos h1]
    exact ⟨hret, (kcalc_read_fault r u n p hret).1⟩
  · have hret : (kcalc_read r u n p).ret = -EFAULT := by
      unfold kcalc_read
      simp only [read_bytes_eq_min]
      rw [if_pos hw, if_neg (not_not.2 h1), if_pos h2]
    exact ⟨hret, (kcalc_read_fault r u n p hret).1⟩
  · have hret : (kcalc_read r u n p).ret = -EFAULT := by
      unfold kcalc_read
      simp only [read_bytes_eq_min]
      rw [if_neg (by omega), if_pos h1]
    exact ⟨hret, (kcalc_read_fault r u n p hret).1⟩

/-- Instance of C12: reads into a user buffer with no accessible byte, on a
ring whose content wraps and on a ring whose content does not. -/
theorem kcalc_read_fault_keeps_ring_witness :
    ((kcalc_read wrap_ring (zero_user 0) 2 0).ret = -EFAULT ∧
      (kcalc_read wrap_ring (zero_user 0) 2 0).result_ring = wrap_ring) ∧
    ((kcalc_read ab_ring (zero_user 0) 2 0).ret = -EFAULT ∧
      (kcalc_read ab_ring (zero_user 0) 2 0).result_ring = ab_ring) :=
  ⟨(kcalc_read_fault_keeps_ring wrap_ring (zero_user 0) 2 0 (by decide)).1
      (by decide) (by decide),
   (kcalc_read_fault_keeps_ring ab_ring (zero_user 0) 2 0 (by decide)).2.2.1
      (by decide) (by decide)⟩

/-- C13: when the `copy_from_user` call of `kcalc_write` fails, `kcalc_write`
returns `-EFAULT`, the outcome does not depend on the evaluator (it is not
run), the result ring is unchanged and so are `count` and `rpos` of the input
buffer; conversely a negative return value occurs only when that copy
failed. -/
theorem kcalc_write_fault_only_from_copy (kcalc_parse : kcalc → kcalc) (d : kcalc)
    (buf : umem) (n : Nat) (p : Int) :
    ((kcalc_write_copy d buf n).2 ≠ 0 →
      (kcalc_write kcalc_parse d buf n p).ret = -EFAULT ∧
      (∀ other_parse : kcalc → kcalc,
        kcalc_write other_parse d buf n p = kcalc_write kcalc_parse d buf n p) ∧
      (kcalc_write kcalc_parse d buf n p).dev.result_ring = d.result_ring ∧
      (kcalc_write kcalc_parse d buf n p).dev.expr_buf.count = d.expr_buf.count ∧
      (kcalc_write kcalc_parse d buf n p).dev.expr_buf.rpos = d.expr_buf.rpos) ∧
    ((kcalc_write kcalc_parse d buf n p).ret < 0 → (kcalc_write_copy d buf n).2 ≠ 0) := by
  constructor
  · intro hf
    have hw : ∀ q : kcalc → kcalc,
        kcalc_write q d buf n p = ⟨(kcalc_write_copy d buf n).1, p, -EFAULT⟩ := by
      intro q
      unfold kcalc_write
      simp only [write_bytes_eq_min]
      rw [if_pos hf]
    obtain ⟨h1, h2, h3⟩ := kcalc_write_copy_frame d buf n
    refine ⟨by rw [hw], fun q => by rw [hw, hw], by rw [hw]; exact h3, by rw [hw]; exact h1,
      by rw [hw]; exact h2⟩
  · intro hneg hz
    have := (kcalc_write_ok_ret kcalc_parse d buf n p hz)
    omega

/-- Instance of C13: a three-byte write of which only two user bytes are
accessible returns `-EFAULT` and leaves the ring and the input buffer's
`count` and `rpos` as they were. -/
theorem kcalc_write_fault_only_from_copy_witness :
    (kcalc_write_copy kcalc_init ⟨fun _ => 49, 2⟩ 3).2 ≠ 0 ∧
    (kcalc_write half_parse kcalc_init ⟨fun _ => 49, 2⟩ 3 0).ret = -EFAULT ∧
    (kcalc_write half_parse kcalc_init ⟨fun _ => 49, 2⟩ 3 0).dev.expr_buf.count =
      kcalc_init.expr_buf.count :=
  ⟨by decide,
   ((kcalc_write_fault_only_from_copy half_parse kcalc_init ⟨fun _ => 49, 2⟩ 3 0).1
      (by decide)).1,
   ((kcalc_write_fault_only_from_copy half_parse kcalc_init ⟨fun _ => 49, 2⟩ 3 0).1
      (by decide)).2.2.2.1⟩

/-- C14: `ring_sprintf32` returns the value reported by the formatter, the
length of the complete rendering before truncation (possibly above 32); the
value is the same for every ring state and every scratch content. -/
theorem ring_sprintf32_returns_rendered_length (r : ring) (stack : Nat → Int)
    (text : List Int) :
    (ring_sprintf32 r stack text).2 = (vsnprintf stack 32 text).2 ∧
    (ring_sprintf32 r stack text).2 = text.length ∧
    ∀ (other : ring) (other_stack : Nat → Int),
      (ring_sprintf32 other other_stack text).2 = (ring_sprintf32 r stack text).2 :=
  ⟨rfl, rfl, fun _ _ => rfl⟩

/-- C15: the ring invariant (`count ≤ RING_SIZE`, `head < RING_SIZE`) holds
for the zero-initialised ring, is kept by `ring_sprintf32` for a rendering of
any length, and is kept by `kcalc_read` for any requested length, whether the
call succeeds or returns `-EFAULT`. -/
theorem ring_inv_is_preserved :
    ring_inv result_ring_init ∧
    (∀ (r : ring) (stack : Nat → Int) (text : List Int),
      ring_inv r → ring_inv (ring_sprintf32 r stack text).1) ∧
    (∀ (r : ring) (u : umem) (n : Nat) (p : Int),
      ring_inv r → ring_inv (kcalc_read r u n p).result_ring) := by
  refine ⟨by decide, fun r stack text hinv => ring_sprintf32_inv r stack text hinv,
    fun r u n p hinv => ?_⟩
  by_cases hf : (kcalc_read r u n p).ret = -EFAULT
  · rw [(kcalc_read_fault r u n p hf).1]; exact hinv
  · obtain ⟨_, hc, _⟩ := kcalc_read_ok r u n p hf
    have hh := kcalc_read_head r u n p hf
    obtain ⟨h1, h2⟩ := hinv
    refine ⟨?_, ?_⟩
    · rw [hc]; omega
    · rw [hh]; simp only [RING_SIZE]; omega

/-- Instance of C15: a rendering of 40 bytes appended to a full ring, a
successful wrapping read and a faulting read all keep the invariant. -/
theorem ring_inv_is_preserved_witness :
    ring_inv (ring_sprintf32 full_ring (fun _ => 0) (List.replicate 40 97)).1 ∧
    ring_inv (kcalc_read wrap_ring (zero_user 16) 2 0).result_ring ∧
    ring_inv (kcalc_read wrap_ring (zero_user 0) 2 0).result_ring :=
  ⟨ring_inv_is_preserved.2.1 full_ring (fun _ => 0) (List.replicate 40 97) (by decide),
   ring_inv_is_preserved.2.2 wrap_ring (zero_user 16) 2 0 (by decide),
   ring_inv_is_preserved.2.2 wrap_ring (zero_user 0) 2 0 (by decide)⟩

/-- C16: a `kcalc_read` call without copy fault on a ring satisfying the
invariant leaves `head` equal to `(head + n) % RING_SIZE` with
`n = min count result_ring.count`, in the wrapping and in the non-wrapping
branch alike, and does not modify any stored cell. -/
theorem kcalc_read_advances_head (r : ring) (u : umem) (n : Nat) (p : Int)
    (_hinv : ring_inv r) (hok : (kcalc_read r u n p).ret ≠ -EFAULT) :
    (kcalc_read r u n p).result_ring.head = (r.head + min n r.count) % RING_SIZE ∧
    (kcalc_read r u n p).result_ring.buf = r.buf :=
  ⟨kcalc_read_head r u n p hok, (kcalc_read_ok r u n p hok).2.2⟩

/-- Instance of C16: a wrapping read moves `head` from 1023 to 1, a
non-wrapping read moves it from 0 to 1. -/
theorem kcalc_read_advances_head_witness :
    (kcalc_read wrap_ring (zero_user 16) 2 0).result_ring.head = (1023 + 2) % 1024 ∧
    (kcalc_read wrap_ring (zero_user 16) 2 0).result_ring.buf = wrap_ring.buf ∧
    (kcalc_read ab_ring (zero_user 16) 1 0).result_ring.head = (0 + 1) % 1024 :=
  ⟨(kcalc_read_advances_head wrap_ring (zero_user 16) 2 0 (by decide) (by decide)).1,
   (kcalc_read_advances_head wrap_ring (zero_user 16) 2 0 (by decide) (by decide)).2,
   (kcalc_read_advances_head ab_ring (zero_user 16) 1 0 (by decide) (by decide)).1⟩

/-- C17: after a `kcalc_write` call that does not return `-EFAULT`, whatever
state the evaluator left behind, the input buffer has `count = 0` and
`rpos = 0`; an `inbuf_getchar` call then returns `EOF`, and the invariant
`rpos ≤ count ≤ INBUF_SIZE` holds. -/
theorem kcalc_write_leaves_input_empty (kcalc_parse : kcalc → kcalc) (d : kcalc)
    (buf : umem) (n : Nat) (p : Int)
    (hok : (kcalc_write kcalc_parse d buf n p).ret ≠ -EFAULT) :
    (kcalc_write kcalc_parse d buf n p).dev.expr_buf.count = 0 ∧
    (kcalc_write kcalc_parse d buf n p).dev.expr_buf.rpos = 0 ∧
    (inbuf_getchar (kcalc_write kcalc_parse d buf n p).dev.expr_buf).1 = EOF ∧
    inbuf_inv (kcalc_write kcalc_parse d buf n p).dev.expr_buf := by
  have hc : (kcalc_write_copy d buf n).2 = 0 := by
    by_contra hne
    apply hok
    unfold kcalc_write
    simp only [write_bytes_eq_min]
    rw [if_pos hne]
  have h0 : (kcalc_write kcalc_parse d buf n p).dev.expr_buf.count = 0 ∧
      (kcalc_write kcalc_parse d buf n p).dev.expr_buf.rpos = 0 := by
    simp [kcalc_write, hc]
  obtain ⟨h1, h2⟩ := h0
  refine ⟨h1, h2, ?_, ?_⟩
  · simp [inbuf_getchar, h1, h2]
  · simp [inbuf_inv, h1, h2]

/-- Instance of C17: a write of `"1+1"` with an evaluator that leaves the
input buffer at `count = 9`, `rpos = 4` still ends with an empty buffer. -/
theorem kcalc_write_leaves_input_empty_witness :
    (half_parse kcalc_init).expr_buf.count = 9 ∧
    (kcalc_write half_parse kcalc_init (user_of [49, 43, 49]) 3 0).ret ≠ -EFAULT ∧
    (kcalc_write half_parse kcalc_init (user_of [49, 43, 49]) 3 0).dev.expr_buf.count = 0 ∧
    (kcalc_write half_parse kcalc_init (user_of [49, 43, 49]) 3 0).dev.expr_buf.rpos = 0 :=
  ⟨by decide, by decide,
   (kcalc_write_leaves_input_empty half_parse kcalc_init (user_of [49, 43, 49]) 3 0
      (by decide)).1,
   (kcalc_write_leaves_input_empty half_parse kcalc_init (user_of [49, 43, 49]) 3 0
      (by decide)).2.1⟩

/-- C18, evaluated on an input buffer whose single unread byte is `0xFF`.
Held in a signed `char` the byte has the value `-1`; `inbuf_getchar` returns
the `char` converted to `int`, that is `-1 = EOF`, although `rpos < count`,
and it does consume the byte.  A byte below `0x80`, here `'A'`, comes back
as itself. -/
theorem inbuf_getchar_ff_collides_with_eof :
    ff_inbuf.rpos < ff_inbuf.count ∧ char_of_byte 255 = -1 ∧
    (inbuf_getchar ff_inbuf).1 = EOF ∧ (inbuf_getchar ff_inbuf).2.rpos = 1 ∧
    (inbuf_getchar ⟨1, 0, fun _ => char_of_byte 65⟩).1 = 65 := by
  decide

/-- C19, evaluated on the fresh ring.  With a rendering of exactly 32
characters `'b'` the loop copies scratch cell 31, which holds the terminating
NUL and not the 32nd character.  With a rendering of 33 characters the ring
cell 32 takes whatever value lies in the memory cell following the 32-cell
scratch array, so the loop reads index 32. -/
theorem ring_sprintf32_reads_nul_and_past_scratch :
    exact32_ring.count = 32 ∧ exact32_ring.buf 30 = 98 ∧ exact32_ring.buf 31 = 0 ∧
    (List.replicate 32 98 : List Int).getD 31 0 = 98 ∧
    (after_scratch_ring 1).count = 33 ∧
    (after_scratch_ring 1).buf 32 = 1 ∧ (after_scratch_ring 2).buf 32 = 2 := by
  decide

end Kcalc
